import Mathlib

/-!
Shallow embedding of the taierspeed-cli core (package `speedtest`,
`src/speedtest/speedtest.go`, and package `defs`, `src/defs/bytes_counter.go`),
with theorems settling the frozen claims about the spec.

Go machine values are modelled as follows: byte slices are `List Nat`
(each element `< 256` where it matters), `float64` latency/measurement
values are `ℚ` (every concrete value appearing in the claims is a small
dyadic rational, represented exactly by `float64`, and the code performs
only division by powers of two and order comparisons on them), Go maps
`map[int]float64` are association lists with distinct keys whose order
models the (unspecified) iteration order, and fallible Go code that
returns `(value, error)` or panics is modelled with `Except`/`Option`.
-/

namespace Speedtest

/-! ## Winner selection (`SpeedTest`, speedtest.go:446-466)

After the ping phase, `pingList` is a `map[int]float64` from candidate index
to measured latency.  The winner loop is

    var serverIdx int
    for idx, ping := range pingList {
        if ping > 0 && ping <= pingList[serverIdx] {
            serverIdx = idx
        }
    }

A Go map read of a missing key yields the zero value `0`.  The map is
modelled as an association list `m : List (Nat × ℚ)` whose list order is the
iteration order of the `range` loop; `mapGet` models the map read. -/

/-- Go map read `pingList[k]`: the value stored for `k`, or `0` when the key
is absent (Go zero value). -/
def mapGet (m : List (Nat × ℚ)) (k : Nat) : ℚ :=
  match m.find? (fun p => p.1 == k) with
  | some p => p.2
  | none => 0

/-- The winner loop of `SpeedTest` (speedtest.go:461-466): `serverIdx` starts
at `0`; a candidate replaces the current best exactly when its latency is
`> 0` and `≤` the current best's latency as read from the map. -/
def fastestIdx (m : List (Nat × ℚ)) : Nat :=
  m.foldl (fun best p => if 0 < p.2 ∧ p.2 ≤ mapGet m best then p.1 else best) 0

/-! ## Server model and filtering

The `defs.Server` struct is declared in the `defs` package outside the two
source files; only the fields used by the filtering code matter here.
Modelled from the spec: a server has a numeric ID, a type tag
{Standard, Perception, Wireless}, network fields (IPv4/IPv6/port/URL) and
location fields (province, city, ISP); `(type, ID)` is the filter identity. -/

inductive ServerType
  | Standard
  | Perception
  | WirelessSpeed
deriving DecidableEq, Repr

structure Server where
  ID : Int
  type : ServerType
  IP : String := ""
  IPv6 : String := ""
  Port : String := ""
  URL : String := ""
  Province : String := ""
  City : String := ""
  ISP : String := ""
deriving DecidableEq, Repr

/-- Membership test `contains` (speedtest.go:796-803): membership of a string in a slice. -/
def containsStr (arr : List String) (val : String) : Bool :=
  arr.any (fun v => v == val)

/-- The filter key of a server (speedtest.go:694-702 and 716-724):
`P<id>` for Perception, `W<id>` for Wireless, bare decimal `<id>` otherwise. -/
def serverKey (server : Server) : String :=
  match server.type with
  | ServerType.Perception => "P" ++ toString server.ID
  | ServerType.WirelessSpeed => "W" ++ toString server.ID
  | ServerType.Standard => toString server.ID

/-- Filtering function `preprocessServers` (speedtest.go:684-734).  Returns `(nil, error)` when
both `excludes` and `specific` are non-empty; otherwise, when `filter` is
set, applies the exclude list, or the include list unless it contains the
sentinel `-1`; otherwise returns the input unchanged. -/
def preprocessServers (servers : List Server) (excludes specific : List String)
    (filter : Bool) : Except String (List Server) :=
  if excludes.length > 0 ∧ specific.length > 0 then
    Except.error "either --exclude or --specific can be used"
  else if filter ∧ excludes.length > 0 then
    Except.ok (servers.filter (fun server => !containsStr excludes (serverKey server)))
  else if filter ∧ specific.length > 0 ∧ !containsStr specific "-1" then
    Except.ok (servers.filter (fun server => containsStr specific (serverKey server)))
  else
    Except.ok servers

/-! ## Province matching (`checkProv`, speedtest.go:805-812)

The `defs.ProvinceInfo` struct is declared outside the two source files.
Modelled from the spec and from the literal at speedtest.go:751: ID, short
code (`Code`), short name (`Short`), full name (`Name`), longitude,
latitude, all strings. -/

structure ProvinceInfo where
  ID : String := ""
  Code : String := ""
  Short : String := ""
  Name : String := ""
  Lon : String := ""
  Lat : String := ""
deriving DecidableEq, Repr

/-- Prefix test, spelled out: does `p` occur at the start of `s`? -/
def startsWith : List Char → List Char → Bool
  | _, [] => true
  | [], _ :: _ => false
  | a :: s, b :: p => a == b && startsWith s p

/-- Substring test modelling `strings.Contains(s, sub)` on the character level: does `sub` occur
contiguously inside `s`?  (Byte-level and character-level containment agree
on valid UTF-8 strings, UTF-8 being self-synchronizing.) -/
def containsSub (s sub : List Char) : Bool :=
  match s with
  | [] => sub.isEmpty
  | _ :: t => startsWith s sub || containsSub t sub

/-- Province matcher `checkProv` (speedtest.go:805-812): some entry's `Short` equals the
field, or its `Name` equals the field, or its `Short` occurs inside the
field (`strings.Contains(val, v.Short)`). -/
def checkProv (arr : List ProvinceInfo) (val : String) : Bool :=
  arr.any (fun v => v.Short == val || v.Name == val || containsSub val.toList v.Short.toList)

end Speedtest

namespace Defs

/-! ## BytesCounter (`src/defs/bytes_counter.go`)

The counter state.  The wall-clock `start` field and the lock are omitted
(no claim concerns elapsed time, and the lock serialises each method body,
which the step functions model atomically).  The `bytes.Reader` built by
`GenerateBlob` is modelled by the generated `payload` plus its read offset
`readerOff`; `bytes.Reader.Read` copies `min(len(buf), len(payload)-off)`
bytes starting at `off` and advances `off`. -/

structure BytesCounter where
  total : Nat
  pos : Nat
  payload : List Nat
  readerOff : Nat
  mebi : Bool
  uploadSize : Nat
deriving DecidableEq, Repr

/-- Constructor `NewCounter` (bytes_counter.go:26-30): zero-valued state. -/
def NewCounter : BytesCounter :=
  { total := 0, pos := 0, payload := [], readerOff := 0, mebi := false, uploadSize := 0 }

/-- Setter `SetUploadSize` (bytes_counter.go:62-64): stores `uploadSize * 1024`. -/
def SetUploadSize (c : BytesCounter) (uploadSize : Nat) : BytesCounter :=
  { c with uploadSize := uploadSize * 1024 }

/-- Setter `SetMebi` (bytes_counter.go:57-59). -/
def SetMebi (c : BytesCounter) (mebi : Bool) : BytesCounter :=
  { c with mebi := mebi }

/-- Payload generation `GenerateBlob` (bytes_counter.go:136-139): fills
`payload` and points a fresh reader at it.  The random bytes produced by
`getRandomData` (crypto/rand, external) are passed in as `data`; the caller
of `GenerateBlob` sizes them to `c.uploadSize`. -/
def GenerateBlob (c : BytesCounter) (data : List Nat) : BytesCounter :=
  { c with payload := data, readerOff := 0 }

/-- Writer method `Write` (bytes_counter.go:33-40): returns `len(p)` and adds
it to `total`. -/
def Write (c : BytesCounter) (p : List Nat) : Nat × BytesCounter :=
  (p.length, { c with total := c.total + p.length })

/-- Reader method `Read` (bytes_counter.go:43-54) for a buffer of length `r`:
delegates to the `bytes.Reader` over `payload`, adds the count read to
`total` and `pos`, and when `pos` reaches `uploadSize` calls `resetReader`
(bytes_counter.go:142-145), which zeroes `pos` and seeks the reader back to
the start.  Returns the bytes served and the new state. -/
def Read (c : BytesCounter) (r : Nat) : List Nat × BytesCounter :=
  let chunk := (c.payload.drop c.readerOff).take r
  let n := chunk.length
  let c1 : BytesCounter :=
    { c with total := c.total + n, pos := c.pos + n, readerOff := c.readerOff + n }
  if c1.pos = c1.uploadSize then (chunk, { c1 with pos := 0, readerOff := 0 }) else (chunk, c1)

/-- Iterated `Read`: runs one `Read` per requested buffer length in `rs`,
collecting the served chunks. -/
def runReads (c : BytesCounter) (rs : List Nat) : List (List Nat) × BytesCounter :=
  match rs with
  | [] => ([], c)
  | r :: rest =>
    let p := Read c r
    let q := runReads p.2 rest
    (p.1 :: q.1, q.2)

/-- Total number of bytes served by `runReads c rs`. -/
def consumed (c : BytesCounter) (rs : List Nat) : Nat :=
  ((runReads c rs).1.map List.length).sum

/-- Accessor `Total` (bytes_counter.go:153-155). -/
def Total (c : BytesCounter) : Nat := c.total

/-- Accessor `Bytes` (bytes_counter.go:101-103): `float64(c.total) / 8`. -/
def Bytes (c : BytesCounter) : ℚ := (c.total : ℚ) / 8

/-- Accessor `MBytes` (bytes_counter.go:106-112): `Bytes()` divided by
`125000`, or by `131072` when `mebi` is set. -/
def MBytes (c : BytesCounter) : ℚ :=
  Bytes c / (if c.mebi then 131072 else 125000)

/-- Unit labels of `BytesHumanize`. -/
inductive ByteUnit
  | bytes
  | kb
  | mb
  | gb
deriving DecidableEq, Repr

/-- Threshold chain of `BytesHumanize` (bytes_counter.go:118-131) applied to
a value `val`: base is `1000` (`1024` when `mebi`); the first unit whose
scaled value is `< base` is selected.  The numeric text rendered by
`fmt.Sprintf` is abstracted away; only the unit choice is modelled. -/
def bunitFor (mebi : Bool) (val : ℚ) : ByteUnit :=
  let base : ℚ := if mebi then 1024 else 1000
  if val < base then ByteUnit.bytes
  else if val / base < base then ByteUnit.kb
  else if val / base / base < base then ByteUnit.mb
  else ByteUnit.gb

/-- Formatter `BytesHumanize` (bytes_counter.go:115-132): applies the
threshold chain to `val := c.Bytes()`. -/
def BytesHumanize (c : BytesCounter) : ByteUnit :=
  bunitFor c.mebi (Bytes c)

end Defs

namespace Speedtest

/-! ## CredentialCodec (`Encrypt`/`Decrypt`, speedtest.go:69-125)

`Encrypt` pads its input with `PKCS5Padding`, encrypts it block-by-block
(ECB, block size 8) with the DES cipher obtained from the key, and returns
the lowercase-hex encoding; `Decrypt` hex-decodes, checks block alignment,
decrypts block-by-block, and strips the padding with `PKCS5UnPadding`.

The DES block transform itself comes from Go's standard library
`crypto/des` (external to this repository) and is abstracted as a pair of
maps on 8-byte blocks; an 8-byte key makes `des.NewCipher` succeed and
yield such a pair, with decryption inverse to encryption.  The hypotheses
of the theorems below state exactly that contract. -/

/-- Abstract 8-byte block transform pair, standing for the
`cipher.Block` value `des.NewCipher(key)` built from one fixed key. -/
structure BlockCipher where
  enc : List Nat → List Nat
  dec : List Nat → List Nat

/-- Lowercase hex digit of a value `< 16` (as produced by
`hex.EncodeToString`, whose digit table is "0123456789abcdef"). -/
def hexDigit (n : Nat) : Char :=
  if n < 10 then Char.ofNat (48 + n) else Char.ofNat (87 + n)

/-- Hex encoding `hex.EncodeToString`: two lowercase digits per byte, high
nibble first. -/
def hexEncode : List Nat → List Char
  | [] => []
  | b :: l => hexDigit (b / 16) :: hexDigit (b % 16) :: hexEncode l

/-- Value of one hex digit as accepted by `hex.DecodeString`
(`0-9`, `a-f`, `A-F`), or `none`. -/
def hexVal (c : Char) : Option Nat :=
  if '0' ≤ c ∧ c ≤ '9' then some (c.toNat - '0'.toNat)
  else if 'a' ≤ c ∧ c ≤ 'f' then some (c.toNat - 'a'.toNat + 10)
  else if 'A' ≤ c ∧ c ≤ 'F' then some (c.toNat - 'A'.toNat + 10)
  else none

/-- Hex decoding `hex.DecodeString`: pairs of digits; odd length or an
invalid digit is an error (`none`). -/
def hexDecode : List Char → Option (List Nat)
  | [] => some []
  | [_] => none
  | c1 :: c2 :: rest =>
    match hexVal c1, hexVal c2, hexDecode rest with
    | some a, some b, some l => some ((a * 16 + b) :: l)
    | _, _, _ => none

/-- Block-by-block (ECB) application of a block map, block size 8: the
encrypt/decrypt loops of speedtest.go:83-87 and 107-111. -/
def ecb (f : List Nat → List Nat) : List Nat → List Nat
  | [] => []
  | b :: l => f ((b :: l).take 8) ++ ecb f ((b :: l).drop 8)
termination_by l => l.length
decreasing_by simp; omega

/-- Padding `PKCS5Padding` (speedtest.go:115-119): appends
`blockSize - len % blockSize` bytes, each equal to that count.  (The count
is at most the block size, 8 here, so the Go `byte` cast is the identity.) -/
def PKCS5Padding (ciphertext : List Nat) (blockSize : Nat) : List Nat :=
  let padding := blockSize - ciphertext.length % blockSize
  ciphertext ++ List.replicate padding padding

/-- Unpadding `PKCS5UnPadding` (speedtest.go:121-125): reads the last byte
as the padding count and truncates it off.  (Go panics when the input is
empty or the count exceeds the length; those inputs never arise from a
well-formed ciphertext, and the truncation here saturates instead.) -/
def PKCS5UnPadding (origData : List Nat) : List Nat :=
  origData.take (origData.length - origData.getLastD 0)

/-- Encoder `Encrypt` (speedtest.go:69-89): pad, ECB-encrypt, hex-encode.
(The source's post-padding alignment re-check always passes and its
`panic` branch is unreachable.) -/
def Encrypt (B : BlockCipher) (src : List Nat) : List Char :=
  hexEncode (ecb B.enc (PKCS5Padding src 8))

/-- Decoder `Decrypt` (speedtest.go:91-113): hex-decode (panic on bad hex,
modelled `none`), check block alignment (panic, modelled `none`),
ECB-decrypt, unpad. -/
def Decrypt (B : BlockCipher) (src : List Char) : Option (List Nat) :=
  match hexDecode src with
  | none => none
  | some data =>
    if data.length % 8 = 0 then some (PKCS5UnPadding (ecb B.dec data)) else none

end Speedtest

namespace Speedtest

/-! ## Theorems: winner selection -/

/-- Helper: the winner fold keeps `0` as the best index when the map has no
entry for index `0`. -/
lemma foldl_best_stays_zero (m l : List (Nat × ℚ)) (hm : mapGet m 0 = 0) :
    l.foldl (fun best p => if 0 < p.2 ∧ p.2 ≤ mapGet m best then p.1 else best) 0 = 0 := by
  induction l with
  | nil => rfl
  | cons p t ih =>
    simp only [List.foldl_cons]
    have hcond : ¬(0 < p.2 ∧ p.2 ≤ mapGet m 0) := by
      rintro ⟨h1, h2⟩
      rw [hm] at h2
      exact absurd (lt_of_lt_of_le h1 h2) (lt_irrefl 0)
    rw [if_neg hcond]
    exact ih

/-- C1: with probe results latency 5 for index 0 and 3 for index 1 and no
result for index 2, the winner computation returns index 1 for every
iteration order of the result mapping, because a candidate replaces the
current best exactly when its latency is `> 0` and `≤` the current best's
latency. -/
theorem fastestIdx_winner (m : List (Nat × ℚ))
    (h : m.Perm [(0, 5), (1, 3)]) : fastestIdx m = 1 := by
  have hlen : m.length = 2 := by simpa using h.length_eq
  cases m with
  | nil => simp at hlen
  | cons x t =>
    cases t with
    | nil => simp at hlen
    | cons y t2 =>
      cases t2 with
      | cons z t3 => simp at hlen
      | nil =>
        have hx : x ∈ [((0:Nat), (5:ℚ)), (1, 3)] := h.subset (by simp)
        have hy : y ∈ [((0:Nat), (5:ℚ)), (1, 3)] := h.subset (by simp)
        simp only [List.mem_cons, List.not_mem_nil, or_false] at hx hy
        rcases hx with rfl | rfl <;> rcases hy with rfl | rfl
        · have hmem : ((1:Nat), (3:ℚ)) ∈ [((0:Nat), (5:ℚ)), (0, 5)] :=
            h.mem_iff.mpr (by simp)
          exact absurd hmem (by decide)
        · decide
        · decide
        · have hmem : ((0:Nat), (5:ℚ)) ∈ [((1:Nat), (3:ℚ)), (1, 3)] :=
            h.mem_iff.mpr (by simp)
          exact absurd hmem (by decide)

/-- Witness for C1: the identity iteration order. -/
theorem fastestIdx_winner_witness :
    ([((0:Nat), (5:ℚ)), (1, 3)]).Perm [((0:Nat), (5:ℚ)), (1, 3)] ∧
      fastestIdx [((0:Nat), (5:ℚ)), (1, 3)] = 1 :=
  ⟨List.Perm.refl _, fastestIdx_winner _ (List.Perm.refl _)⟩

/-- C2: when the result mapping is non-empty but has no entry for index 0,
the missing key reads as latency 0, so no candidate with positive latency
passes the `≤` test against the initial best, and the winner computation
returns index 0 regardless of the other candidates' latencies. -/
theorem fastestIdx_missing_zero (m : List (Nat × ℚ)) (_hne : m ≠ [])
    (h0 : ∀ p ∈ m, p.1 ≠ 0) : fastestIdx m = 0 ∧ mapGet m 0 = 0 := by
  have hm : mapGet m 0 = 0 := by
    unfold mapGet
    rw [List.find?_eq_none.mpr]
    intro p hp
    simpa using h0 p hp
  exact ⟨foldl_best_stays_zero m m hm, hm⟩

/-- Witness for C2: a singleton result mapping for index 1 with latency 3. -/
theorem fastestIdx_missing_zero_witness :
    ([((1:Nat), (3:ℚ))] ≠ [] ∧ ∀ p ∈ [((1:Nat), (3:ℚ))], p.1 ≠ 0) ∧
      (fastestIdx [((1:Nat), (3:ℚ))] = 0 ∧ mapGet [((1:Nat), (3:ℚ))] 0 = 0) :=
  ⟨⟨by simp, by decide⟩, fastestIdx_missing_zero _ (by simp) (by decide)⟩

/-! ## Theorems: server filtering -/

/-- C7: for every server list and both values of the filter flag, calling
`preprocessServers` with both the exclude list and the specific list
non-empty returns the configuration error (and hence no server list),
regardless of the contents of either list. -/
theorem preprocessServers_exclusive (servers : List Server)
    (excludes specific : List String) (filter : Bool)
    (he : excludes ≠ []) (hs : specific ≠ []) :
    preprocessServers servers excludes specific filter =
      Except.error "either --exclude or --specific can be used" := by
  unfold preprocessServers
  rw [if_pos ⟨List.length_pos.mpr he, List.length_pos.mpr hs⟩]

/-- Witness for C7. -/
theorem preprocessServers_exclusive_witness :
    (["1"] ≠ ([] : List String) ∧ ["P2"] ≠ ([] : List String)) ∧
      preprocessServers [] ["1"] ["P2"] true =
        Except.error "either --exclude or --specific can be used" :=
  ⟨⟨by simp, by simp⟩,
    preprocessServers_exclusive [] ["1"] ["P2"] true (by simp) (by simp)⟩

/-- C8: with filtering enabled, an empty exclude list, and a specific list
containing the sentinel `-1`, `preprocessServers` returns its input
unchanged, even when the specific list has other entries. -/
theorem preprocessServers_sentinel (servers : List Server)
    (specific : List String) (h : containsStr specific "-1" = true) :
    preprocessServers servers [] specific true = Except.ok servers := by
  unfold preprocessServers
  simp [h]

/-- Witness for C8: a specific list with the sentinel and another entry, on
a one-server list. -/
theorem preprocessServers_sentinel_witness :
    containsStr ["-1", "5"] "-1" = true ∧
      preprocessServers [{ ID := 7, type := ServerType.Perception }] [] ["-1", "5"] true =
        Except.ok [{ ID := 7, type := ServerType.Perception }] :=
  ⟨by decide, preprocessServers_sentinel _ ["-1", "5"] (by decide)⟩

end Speedtest

namespace Speedtest

/-! ## Theorems: province matching -/

/-- Helper: `startsWith` decides the prefix relation. -/
lemma startsWith_iff (s p : List Char) : startsWith s p = true ↔ p <+: s := by
  induction p generalizing s with
  | nil => cases s <;> simp [startsWith]
  | cons b p ih =>
    cases s with
    | nil => simp [startsWith]
    | cons a s =>
      rw [show startsWith (a :: s) (b :: p) = (a == b && startsWith s p) from rfl]
      rw [Bool.and_eq_true, beq_iff_eq, ih, List.cons_prefix_cons]
      exact ⟨fun h => ⟨h.1.symm, h.2⟩, fun h => ⟨h.1.symm, h.2⟩⟩

/-- Helper: `containsSub` decides the infix (contiguous substring) relation. -/
lemma containsSub_iff (s sub : List Char) : containsSub s sub = true ↔ sub <:+: s := by
  induction s with
  | nil => simp [containsSub, List.isEmpty_iff]
  | cons a t ih =>
    simp [containsSub, startsWith_iff, ih, List.infix_cons_iff]

/-- Counterexample to C4 as stated: the short code "沪" is not a substring
of the field "上海", and neither the short code nor the (empty) full name
equals it, so `checkProv` rejects this pair rather than accepting it. -/
theorem checkProv_claim_counterexample :
    checkProv [{ Short := "沪" }] "上海" = false := by decide

/-- C4 (amended): `checkProv` returns true iff some filter entry's short
code equals the field, or its full name equals the field, or its short code
occurs as a contiguous substring of the field; in particular
`checkProv([{Short:"沪", Name:"上海市"}], "上海市") = true`,
`checkProv([{Short:"沪"}], "上海") = false` (the short code must occur
within the field, and "沪" does not occur in "上海"), and
`checkProv([{Short:"京"}], "上海市") = false`. -/
theorem checkProv_spec (arr : List ProvinceInfo) (val : String) :
    (checkProv arr val = true ↔
      ∃ v ∈ arr, v.Short = val ∨ v.Name = val ∨ v.Short.toList <:+: val.toList) ∧
    checkProv [{ Short := "沪", Name := "上海市" }] "上海市" = true ∧
    checkProv [{ Short := "沪" }] "上海" = false ∧
    checkProv [{ Short := "京" }] "上海市" = false := by
  refine ⟨?_, by decide, by decide, by decide⟩
  simp [checkProv, List.any_eq_true, containsSub_iff, or_assoc]

end Speedtest

namespace Defs

/-! ## Theorems: unit thresholds and bit/byte semantics -/

/-- Counterexample to C5 as stated: a counter whose cumulative byte total is
1000 reports in "bytes", not "KB", because the formatter applies the
thresholds to `Bytes() = total/8 = 125`, not to the raw total. -/
theorem bytesHumanize_claim_counterexample :
    BytesHumanize { total := 1000, pos := 0, payload := [], readerOff := 0, mebi := false, uploadSize := 0 } = ByteUnit.bytes ∧
      BytesHumanize { total := 1000, pos := 0, payload := [], readerOff := 0, mebi := false, uploadSize := 0 } ≠ ByteUnit.kb := by
  constructor
  · norm_num [BytesHumanize, bunitFor, Bytes]
  · norm_num [BytesHumanize, bunitFor, Bytes]
    decide

/-- C5 (amended): the thresholds of `BytesHumanize` apply to the reported
value `Bytes() = total/8`, not to the cumulative byte total: with `mebi`
unset, `Bytes() = 999` (total 7992) reports in "bytes" and `Bytes() = 1000`
(total 8000) reports in "KB"; with `mebi` set the analogous thresholds sit
at 1024 (`Bytes() = 1023.875` at total 8191 reports "bytes", `Bytes() =
1024` at total 8192 reports "KB") — the formatter selects the first unit in
byte/KB/MB/GB order whose scaled value is `< base`. -/
theorem bytesHumanize_thresholds :
    Bytes { total := 7992, pos := 0, payload := [], readerOff := 0, mebi := false, uploadSize := 0 } = 999 ∧
    BytesHumanize { total := 7992, pos := 0, payload := [], readerOff := 0, mebi := false, uploadSize := 0 } = ByteUnit.bytes ∧
    Bytes { total := 8000, pos := 0, payload := [], readerOff := 0, mebi := false, uploadSize := 0 } = 1000 ∧
    BytesHumanize { total := 8000, pos := 0, payload := [], readerOff := 0, mebi := false, uploadSize := 0 } = ByteUnit.kb ∧
    BytesHumanize { total := 8191, pos := 0, payload := [], readerOff := 0, mebi := true, uploadSize := 0 } = ByteUnit.bytes ∧
    Bytes { total := 8192, pos := 0, payload := [], readerOff := 0, mebi := true, uploadSize := 0 } = 1024 ∧
    BytesHumanize { total := 8192, pos := 0, payload := [], readerOff := 0, mebi := true, uploadSize := 0 } = ByteUnit.kb := by
  refine ⟨?_, ?_, ?_, ?_, ?_, ?_, ?_⟩ <;> norm_num [BytesHumanize, bunitFor, Bytes]

/-- C6: `Write` and `Read` increment the cumulative total by the byte length
of each buffer, `Bytes()` returns `Total()/8`, `MBytes()` returns
`Total()/8/125000` (`/131072` when `mebi` is set), and `BytesHumanize`
formats `Total()/8` rather than `Total()`: the humanized byte reports
interpret the accumulated byte count as a bit count. -/
theorem counter_divides_total_by_eight (c : BytesCounter) (p : List Nat) (r : Nat) :
    (Write c p).2.total = c.total + p.length ∧
    (Read c r).2.total = c.total + (Read c r).1.length ∧
    Bytes c = (c.total : ℚ) / 8 ∧
    MBytes c = (c.total : ℚ) / 8 / (if c.mebi then (131072 : ℚ) else 125000) ∧
    BytesHumanize c = bunitFor c.mebi ((c.total : ℚ) / 8) := by
  refine ⟨rfl, ?_, rfl, rfl, rfl⟩
  unfold Read
  dsimp only
  split <;> rfl

end Defs

namespace Defs

/-! ## Theorems: counter cycling -/

/-- Helper: taking `r` elements is the same as taking `min r length`. -/
lemma take_min {α : Type} (l : List α) (r : Nat) : l.take r = l.take (min r l.length) := by
  rcases le_total r l.length with h | h
  · rw [Nat.min_eq_left h]
  · rw [Nat.min_eq_right h, List.take_of_length_le h, List.take_length]

/-- Helper: one `Read` step, from a state whose position agrees with the
reader offset, whose payload fills the configured upload size, and whose
position is strictly inside it: the served chunk is the payload slice at
the position, of length `min r (uploadSize - pos)`; the payload and upload
size are unchanged; position and reader offset stay in sync, advance
modulo `uploadSize` (the reset at exactly `uploadSize` is the wrap), and
stay strictly below `uploadSize`; `total` grows by the chunk length. -/
lemma Read_spec (c : BytesCounter) (r : Nat)
    (hsync : c.pos = c.readerOff) (hlen : c.payload.length = c.uploadSize)
    (hlt : c.pos < c.uploadSize) :
    (Read c r).1 = (c.payload.drop c.pos).take ((Read c r).1.length) ∧
    (Read c r).1.length = min r (c.uploadSize - c.pos) ∧
    (Read c r).2.payload = c.payload ∧
    (Read c r).2.uploadSize = c.uploadSize ∧
    (Read c r).2.pos = (Read c r).2.readerOff ∧
    (Read c r).2.pos = (c.pos + (Read c r).1.length) % c.uploadSize ∧
    (Read c r).2.pos < c.uploadSize ∧
    (Read c r).2.total = c.total + (Read c r).1.length := by
  have hn : ((c.payload.drop c.readerOff).take r).length = min r (c.uploadSize - c.pos) := by
    rw [List.length_take, List.length_drop, hlen, hsync]
  have hchunk : (c.payload.drop c.readerOff).take r =
      (c.payload.drop c.pos).take (((c.payload.drop c.readerOff).take r).length) := by
    rw [hn, ← hsync, take_min (c.payload.drop c.pos) r, List.length_drop, hlen]
  unfold Read
  dsimp only
  split
  · rename_i h
    dsimp only at h ⊢
    refine ⟨hchunk, hn, rfl, rfl, rfl, ?_, ?_, rfl⟩
    · rw [hn] at h
      rw [hn, h, Nat.mod_self]
    · omega
  · rename_i h
    dsimp only at h ⊢
    refine ⟨hchunk, hn, rfl, rfl, ?_, ?_, ?_, rfl⟩
    · rw [hsync]
    · rw [hn] at h ⊢
      rw [Nat.mod_eq_of_lt (by omega)]
    · rw [hn] at h
      omega

/-- Helper: iterated `Read` from a synced in-range state over a payload
filling the upload size: the payload and upload size never change, position
and offset stay synced and in `[0, uploadSize)`, the position advances by
the total bytes served modulo `uploadSize`, `total` grows by the bytes
served, and as long as the run does not wrap past the end, the
concatenation of the served chunks is exactly the payload slice read. -/
lemma runReads_spec (N : Nat) (data : List Nat) :
    ∀ (rs : List Nat) (c : BytesCounter),
      c.payload = data → data.length = N → c.uploadSize = N →
      c.pos = c.readerOff → c.pos < N →
      (runReads c rs).2.payload = data ∧
      (runReads c rs).2.uploadSize = N ∧
      (runReads c rs).2.pos = (runReads c rs).2.readerOff ∧
      (runReads c rs).2.pos = (c.pos + consumed c rs) % N ∧
      (runReads c rs).2.pos < N ∧
      (runReads c rs).2.total = c.total + consumed c rs ∧
      (c.pos + consumed c rs ≤ N →
        (runReads c rs).1.flatten = (data.drop c.pos).take (consumed c rs)) := by
  intro rs
  induction rs with
  | nil =>
    intro c hpay hdl hup hsync hlt
    refine ⟨hpay, hup, hsync, ?_, by simpa using hlt, by simp [consumed, runReads], ?_⟩
    · simp only [consumed, runReads, List.map_nil, List.sum_nil, Nat.add_zero]
      exact (Nat.mod_eq_of_lt hlt).symm
    · intro _
      simp [consumed, runReads]
  | cons r rest ih =>
    intro c hpay hdl hup hsync hlt
    have hstep := Read_spec c r hsync (by rw [hpay, hdl, hup]) (by rw [hup]; exact hlt)
    obtain ⟨hchunk, hnlen, hpay1, hup1, hsync1, hpos1, hlt1, htot1⟩ := hstep
    have hc1 : (runReads c (r :: rest)).2 = (runReads (Read c r).2 rest).2 := by
      simp only [runReads]
    have hc1f : (runReads c (r :: rest)).1 = (Read c r).1 :: (runReads (Read c r).2 rest).1 := by
      simp only [runReads]
    have hcons : consumed c (r :: rest) =
        (Read c r).1.length + consumed (Read c r).2 rest := by
      simp only [consumed, hc1f, List.map_cons, List.sum_cons]
    rw [hup] at hpos1 hlt1
    have hrest := ih (Read c r).2 (hpay1.trans hpay) hdl (hup1.trans hup) hsync1 hlt1
    obtain ⟨rpay, rup, rsync, rpos, rlt, rtot, rflat⟩ := hrest
    refine ⟨hc1 ▸ rpay, hc1 ▸ rup, hc1 ▸ rsync, ?_, hc1 ▸ rlt, ?_, ?_⟩
    · rw [hc1, hcons, rpos, hpos1, Nat.mod_add_mod, Nat.add_assoc]
    · rw [hc1, hcons, rtot, htot1, Nat.add_assoc]
    · intro hle
      rw [hcons] at hle
      rw [hc1f, hcons, List.flatten_cons]
      rw [hpay] at hchunk
      by_cases hwrap : c.pos + (Read c r).1.length = N
      · -- the step wrapped: everything after it serves 0 bytes
        have hzero : consumed (Read c r).2 rest = 0 := by omega
        have hflat0 := rflat (by rw [hpos1, hwrap, Nat.mod_self, hzero]; omega)
        rw [hzero] at hflat0
        simp only [List.take_zero] at hflat0
        rw [hflat0, hzero, List.append_nil, Nat.add_zero]
        exact hchunk
      · have hlt2 : c.pos + (Read c r).1.length < N := by omega
        have hflat2 := rflat (by rw [hpos1, Nat.mod_eq_of_lt hlt2]; omega)
        rw [hpos1, Nat.mod_eq_of_lt hlt2] at hflat2
        rw [hflat2, List.take_add, List.drop_drop, hchunk, List.length_take, ← take_min]

end Defs

namespace Defs

/-- C10: a counter configured with upload size 10 (10240 bytes) whose
payload has been generated keeps its position inside `[0, uploadSize)`
after every `Read`; once reads have served bytes summing to exactly 10240,
the position is reset to 0 and the reader is seeked back to the start, the
payload is not regenerated, the reads served exactly the payload, and a
subsequent run serving another 10240 bytes serves the same payload again. -/
theorem counter_cycling (data : List Nat) (hdata : data.length = 10240) :
    (∀ rs : List Nat,
      (runReads (GenerateBlob (SetUploadSize NewCounter 10) data) rs).2.pos <
        (GenerateBlob (SetUploadSize NewCounter 10) data).uploadSize) ∧
    (∀ rs : List Nat,
      consumed (GenerateBlob (SetUploadSize NewCounter 10) data) rs = 10240 →
      (runReads (GenerateBlob (SetUploadSize NewCounter 10) data) rs).2.pos = 0 ∧
      (runReads (GenerateBlob (SetUploadSize NewCounter 10) data) rs).2.readerOff = 0 ∧
      (runReads (GenerateBlob (SetUploadSize NewCounter 10) data) rs).2.payload = data ∧
      (runReads (GenerateBlob (SetUploadSize NewCounter 10) data) rs).2.total = 10240 ∧
      (runReads (GenerateBlob (SetUploadSize NewCounter 10) data) rs).1.flatten = data) ∧
    (∀ rs rs2 : List Nat,
      consumed (GenerateBlob (SetUploadSize NewCounter 10) data) rs = 10240 →
      consumed ((runReads (GenerateBlob (SetUploadSize NewCounter 10) data) rs).2) rs2 = 10240 →
      (runReads ((runReads (GenerateBlob (SetUploadSize NewCounter 10) data) rs).2) rs2).1.flatten
        = data) := by
  set c0 := GenerateBlob (SetUploadSize NewCounter 10) data with hc0
  have hpay : c0.payload = data := rfl
  have hup : c0.uploadSize = 10240 := rfl
  have hsync : c0.pos = c0.readerOff := rfl
  have hpos0 : c0.pos = 0 := rfl
  have htot0 : c0.total = 0 := rfl
  have hlt : c0.pos < 10240 := by rw [hpos0]; norm_num
  have htake : data.take 10240 = data := by rw [← hdata, List.take_length]
  have base := fun rs => runReads_spec 10240 data rs c0 hpay hdata hup hsync hlt
  refine ⟨?_, ?_, ?_⟩
  · intro rs
    rw [hup]
    exact (base rs).2.2.2.2.1
  · intro rs hcons
    obtain ⟨spay, sup, ssync, spos, slt, stot, sflat⟩ := base rs
    have hzero : (runReads c0 rs).2.pos = 0 := by
      rw [spos, hcons, hpos0]
    refine ⟨hzero, by rw [← ssync]; exact hzero, spay, ?_, ?_⟩
    · rw [stot, hcons, htot0]
    · have hfl := sflat (by rw [hcons, hpos0])
      rw [hpos0, hcons] at hfl
      simp only [List.drop_zero] at hfl
      rw [htake] at hfl
      exact hfl
  · intro rs rs2 hcons hcons2
    obtain ⟨spay, sup, ssync, spos, slt, stot, sflat⟩ := base rs
    have hzero : (runReads c0 rs).2.pos = 0 := by
      rw [spos, hcons, hpos0]
    obtain ⟨_, _, _, _, _, _, sflat2⟩ :=
      runReads_spec 10240 data rs2 ((runReads c0 rs).2) spay hdata sup ssync slt
    have hfl := sflat2 (by rw [hzero, hcons2])
    rw [hzero, hcons2] at hfl
    simp only [List.drop_zero] at hfl
    rw [htake] at hfl
    exact hfl

/-- Witness for C10: an all-zero payload of 10240 bytes, with one full-size
read serving exactly 10240 bytes. -/
theorem counter_cycling_witness :
    (List.replicate 10240 (0 : Nat)).length = 10240 ∧
    consumed (GenerateBlob (SetUploadSize NewCounter 10) (List.replicate 10240 (0 : Nat)))
      [10240] = 10240 ∧
    (runReads (GenerateBlob (SetUploadSize NewCounter 10) (List.replicate 10240 (0 : Nat)))
      [10240]).2.pos = 0 ∧
    (runReads (GenerateBlob (SetUploadSize NewCounter 10) (List.replicate 10240 (0 : Nat)))
      [10240]).1.flatten = List.replicate 10240 (0 : Nat) := by
  have hlen : (List.replicate 10240 (0 : Nat)).length = 10240 := by
    rw [List.length_replicate]
  have hmain := counter_cycling (List.replicate 10240 (0 : Nat)) hlen
  have hread := Read_spec (GenerateBlob (SetUploadSize NewCounter 10)
      (List.replicate 10240 (0 : Nat))) 10240 rfl
      (by show (List.replicate 10240 (0 : Nat)).length = 10 * 1024
          rw [List.length_replicate])
      (by show (0 : Nat) < 10 * 1024; norm_num)
  have hcons : consumed (GenerateBlob (SetUploadSize NewCounter 10)
      (List.replicate 10240 (0 : Nat))) [10240] = 10240 := by
    simp only [consumed, runReads, List.map_cons, List.map_nil, List.sum_cons, List.sum_nil]
    rw [hread.2.1]
    show min 10240 (10 * 1024 - 0) + 0 = 10240
    norm_num
  exact ⟨hlen, hcons, (hmain.2.1 [10240] hcons).1, (hmain.2.1 [10240] hcons).2.2.2.2⟩

end Defs

namespace Speedtest

/-! ## Theorems: codec round-trip and padding -/

/-- Helper: hex digits decode back to their value. -/
lemma hexVal_hexDigit : ∀ d < 16, hexVal (hexDigit d) = some d := by decide

/-- Helper: hex decoding inverts hex encoding on byte lists. -/
lemma hexDecode_hexEncode (l : List Nat) (h : ∀ x ∈ l, x < 256) :
    hexDecode (hexEncode l) = some l := by
  induction l with
  | nil => rfl
  | cons b t ih =>
    have hb : b < 256 := h b (by simp)
    have ht : ∀ x ∈ t, x < 256 := fun x hx => h x (by simp [hx])
    have h1 : hexVal (hexDigit (b / 16)) = some (b / 16) := hexVal_hexDigit _ (by omega)
    have h2 : hexVal (hexDigit (b % 16)) = some (b % 16) := hexVal_hexDigit _ (by omega)
    show hexDecode (hexDigit (b / 16) :: hexDigit (b % 16) :: hexEncode t) = some (b :: t)
    simp only [hexDecode, h1, h2, ih ht, Option.some.injEq, List.cons.injEq]
    exact ⟨by omega, trivial⟩

/-- Helper: `ecb` on the empty input. -/
lemma ecb_nil (f : List Nat → List Nat) : ecb f [] = [] := by
  rw [ecb]

/-- Helper: `ecb` on a non-empty input processes one block and recurses. -/
lemma ecb_ne (f : List Nat → List Nat) (l : List Nat) (h : l ≠ []) :
    ecb f l = f (l.take 8) ++ ecb f (l.drop 8) := by
  cases l with
  | nil => exact absurd rfl h
  | cons b t => rw [ecb]

/-- Helper: `ecb` distributes over a leading full block. -/
lemma ecb_append (f : List Nat → List Nat) (b l : List Nat) (hb : b.length = 8) :
    ecb f (b ++ l) = f b ++ ecb f l := by
  have hne : b ++ l ≠ [] := by
    cases b with
    | nil => simp at hb
    | cons x xs => simp
  rw [ecb_ne f _ hne, ← hb, List.take_left, List.drop_left]

/-- Helper: `ecb` of a block-aligned byte list preserves length and byte
range, for any block map that does so on single blocks. -/
lemma ecb_facts (enc : List Nat → List Nat)
    (hlen : ∀ b : List Nat, b.length = 8 → (∀ x ∈ b, x < 256) → (enc b).length = 8)
    (hval : ∀ b : List Nat, b.length = 8 → (∀ x ∈ b, x < 256) → ∀ x ∈ enc b, x < 256) :
    ∀ (n : Nat) (l : List Nat), l.length = n → 8 ∣ n → (∀ x ∈ l, x < 256) →
      (ecb enc l).length = l.length ∧ (∀ x ∈ ecb enc l, x < 256) := by
  intro n
  induction n using Nat.strong_induction_on with
  | _ n ih =>
    intro l hl hdvd hvalid
    cases l with
    | nil => simp [ecb_nil]
    | cons b t =>
      have hlen8 : 8 ≤ n := by
        have : n ≠ 0 := by rw [← hl]; simp
        omega
      have htlen : (b :: t).length = n := hl
      have htake_len : ((b :: t).take 8).length = 8 := by
        rw [List.length_take]
        omega
      have htake_val : ∀ x ∈ (b :: t).take 8, x < 256 :=
        fun x hx => hvalid x (List.take_subset 8 (b :: t) hx)
      have hdrop_val : ∀ x ∈ (b :: t).drop 8, x < 256 :=
        fun x hx => hvalid x (List.drop_subset 8 (b :: t) hx)
      have hdrop_len : ((b :: t).drop 8).length = n - 8 := by
        rw [List.length_drop, htlen]
      have hih := ih (n - 8) (by omega) ((b :: t).drop 8) hdrop_len (by omega) hdrop_val
      rw [ecb_ne enc (b :: t) (by simp)]
      constructor
      · rw [List.length_append, hlen _ htake_len htake_val, hih.1, hdrop_len, htlen]
        omega
      · intro x hx
        rcases List.mem_append.mp hx with hx | hx
        · exact hval _ htake_len htake_val x hx
        · exact hih.2 x hx

/-- Helper: block-by-block decryption inverts block-by-block encryption on
block-aligned byte lists, for any inverse pair of block maps. -/
lemma ecb_inverse (enc dec : List Nat → List Nat)
    (hlen : ∀ b : List Nat, b.length = 8 → (∀ x ∈ b, x < 256) → (enc b).length = 8)
    (hinv : ∀ b : List Nat, b.length = 8 → (∀ x ∈ b, x < 256) → dec (enc b) = b) :
    ∀ (n : Nat) (l : List Nat), l.length = n → 8 ∣ n → (∀ x ∈ l, x < 256) →
      ecb dec (ecb enc l) = l := by
  intro n
  induction n using Nat.strong_induction_on with
  | _ n ih =>
    intro l hl hdvd hvalid
    cases l with
    | nil => rw [ecb_nil, ecb_nil]
    | cons b t =>
      have hlen8 : 8 ≤ n := by
        have : n ≠ 0 := by rw [← hl]; simp
        omega
      have htake_len : ((b :: t).take 8).length = 8 := by
        rw [List.length_take]
        rw [hl]
        omega
      have htake_val : ∀ x ∈ (b :: t).take 8, x < 256 :=
        fun x hx => hvalid x (List.take_subset 8 (b :: t) hx)
      have hdrop_val : ∀ x ∈ (b :: t).drop 8, x < 256 :=
        fun x hx => hvalid x (List.drop_subset 8 (b :: t) hx)
      have hdrop_len : ((b :: t).drop 8).length = n - 8 := by
        rw [List.length_drop, hl]
      rw [ecb_ne enc (b :: t) (by simp)]
      rw [ecb_append dec _ _ (hlen _ htake_len htake_val)]
      rw [hinv _ htake_len htake_val]
      rw [ih (n - 8) (by omega) ((b :: t).drop 8) hdrop_len (by omega) hdrop_val]
      exact List.take_append_drop 8 (b :: t)

/-- Helper: shape, length and divisibility facts about `PKCS5Padding` at
block size 8. -/
lemma PKCS5Padding_spec (p : List Nat) :
    1 ≤ 8 - p.length % 8 ∧ 8 - p.length % 8 ≤ 8 ∧
    (p.length % 8 = 0 → 8 - p.length % 8 = 8) ∧
    PKCS5Padding p 8 = p ++ List.replicate (8 - p.length % 8) (8 - p.length % 8) ∧
    (PKCS5Padding p 8).length = p.length + (8 - p.length % 8) ∧
    8 ∣ (PKCS5Padding p 8).length ∧ 0 < (PKCS5Padding p 8).length := by
  have h : p.length % 8 < 8 := Nat.mod_lt _ (by norm_num)
  have hlen : (PKCS5Padding p 8).length = p.length + (8 - p.length % 8) := by
    simp [PKCS5Padding]
  refine ⟨by omega, by omega, by omega, rfl, hlen, ?_, ?_⟩
  · rw [hlen]
    omega
  · rw [hlen]
    omega

/-- Helper: the last element of a list extended by a non-empty constant
run is that constant. -/
lemma getLastD_append_replicate (p : List Nat) (c : Nat) (hc : 1 ≤ c) :
    (p ++ List.replicate c c).getLastD 0 = c := by
  have haux : ∀ (k : Nat), (List.replicate (k + 1) c).getLast? = some c := by
    intro k
    induction k with
    | zero => rfl
    | succ j ihj =>
      rw [List.replicate_succ, List.replicate_succ, List.getLast?_cons_cons,
        ← List.replicate_succ]
      exact ihj
  obtain ⟨k, rfl⟩ : ∃ k, c = k + 1 := ⟨c - 1, by omega⟩
  rw [List.getLastD_eq_getLast?, List.getLast?_append_of_ne_nil _ (by simp), haux k]
  rfl

/-- Helper: unpadding inverts padding at block size 8. -/
lemma PKCS5UnPadding_PKCS5Padding (p : List Nat) :
    PKCS5UnPadding (PKCS5Padding p 8) = p := by
  have h : p.length % 8 < 8 := Nat.mod_lt _ (by norm_num)
  rw [show PKCS5Padding p 8 =
      p ++ List.replicate (8 - p.length % 8) (8 - p.length % 8) from rfl]
  unfold PKCS5UnPadding
  rw [getLastD_append_replicate p _ (by omega)]
  rw [List.length_append, List.length_replicate]
  have heq : p.length + (8 - p.length % 8) - (8 - p.length % 8) = p.length := by omega
  rw [heq]
  exact List.take_left p _

end Speedtest

namespace Speedtest

/-- C3: for every plaintext byte string and every block cipher obtained
from an 8-byte key (`des.NewCipher` succeeds exactly on 8-byte keys and
yields an inverse pair of length-preserving block transforms — the
hypotheses state that contract), `Decrypt (Encrypt p) = p`: encoding pads
with PKCS#5, encrypts block-by-block and hex-encodes, and decoding inverts
each step and strips the padding. -/
theorem Decrypt_Encrypt (B : BlockCipher)
    (hlen : ∀ b : List Nat, b.length = 8 → (∀ x ∈ b, x < 256) → (B.enc b).length = 8)
    (hval : ∀ b : List Nat, b.length = 8 → (∀ x ∈ b, x < 256) → ∀ x ∈ B.enc b, x < 256)
    (hinv : ∀ b : List Nat, b.length = 8 → (∀ x ∈ b, x < 256) → B.dec (B.enc b) = b)
    (p : List Nat) (hp : ∀ x ∈ p, x < 256) :
    Decrypt B (Encrypt B p) = some p := by
  obtain ⟨hc1, hc8, -, hpadeq, hpadlen, hpaddvd, -⟩ := PKCS5Padding_spec p
  have hpadval : ∀ x ∈ PKCS5Padding p 8, x < 256 := by
    rw [hpadeq]
    intro x hx
    rcases List.mem_append.mp hx with hx | hx
    · exact hp x hx
    · have := List.eq_of_mem_replicate hx
      omega
  obtain ⟨hctlen, hctval⟩ :=
    ecb_facts B.enc hlen hval (PKCS5Padding p 8).length (PKCS5Padding p 8) rfl hpaddvd hpadval
  have hmod : (ecb B.enc (PKCS5Padding p 8)).length % 8 = 0 := by
    rw [hctlen]
    omega
  unfold Decrypt Encrypt
  rw [hexDecode_hexEncode _ hctval]
  dsimp only
  rw [if_pos hmod]
  rw [ecb_inverse B.enc B.dec hlen hinv (PKCS5Padding p 8).length (PKCS5Padding p 8)
    rfl hpaddvd hpadval]
  rw [PKCS5UnPadding_PKCS5Padding]

/-- Witness for C3: the identity block transform (a valid inverse pair) on
the plaintext bytes of "hi". -/
theorem Decrypt_Encrypt_witness :
    (∀ x ∈ [104, 105], x < 256) ∧
      Decrypt ⟨fun b => b, fun b => b⟩ (Encrypt ⟨fun b => b, fun b => b⟩ [104, 105]) =
        some [104, 105] :=
  ⟨by decide,
    Decrypt_Encrypt ⟨fun b => b, fun b => b⟩ (fun _ hb _ => hb) (fun _ _ hv => hv)
      (fun _ _ _ => rfl) [104, 105] (by decide)⟩

/-- C9: for every input, `PKCS5Padding` at the cipher block size 8 appends
`k` padding bytes with `1 ≤ k ≤ 8` (exactly 8 when the input length is
already a multiple of 8), each equal to `k`; consequently the byte string
obtained by hex-decoding `Encrypt`'s output is a positive multiple of the
block size in length. -/
theorem PKCS5Padding_bounds (B : BlockCipher)
    (hlen : ∀ b : List Nat, b.length = 8 → (∀ x ∈ b, x < 256) → (B.enc b).length = 8)
    (hval : ∀ b : List Nat, b.length = 8 → (∀ x ∈ b, x < 256) → ∀ x ∈ B.enc b, x < 256)
    (p : List Nat) (hp : ∀ x ∈ p, x < 256) :
    ∃ k, 1 ≤ k ∧ k ≤ 8 ∧ (8 ∣ p.length → k = 8) ∧
      PKCS5Padding p 8 = p ++ List.replicate k k ∧
      ∃ d, hexDecode (Encrypt B p) = some d ∧
        d.length = p.length + k ∧ 8 ∣ d.length ∧ 0 < d.length := by
  obtain ⟨hc1, hc8, hcfull, hpadeq, hpadlen, hpaddvd, hpadpos⟩ := PKCS5Padding_spec p
  have hpadval : ∀ x ∈ PKCS5Padding p 8, x < 256 := by
    rw [hpadeq]
    intro x hx
    rcases List.mem_append.mp hx with hx | hx
    · exact hp x hx
    · have := List.eq_of_mem_replicate hx
      omega
  obtain ⟨hctlen, hctval⟩ :=
    ecb_facts B.enc hlen hval (PKCS5Padding p 8).length (PKCS5Padding p 8) rfl hpaddvd hpadval
  refine ⟨8 - p.length % 8, hc1, hc8, ?_, hpadeq, ecb B.enc (PKCS5Padding p 8), ?_, ?_, ?_, ?_⟩
  · intro hdvd
    omega
  · unfold Encrypt
    exact hexDecode_hexEncode _ hctval
  · rw [hctlen, hpadlen]
  · rw [hctlen]
    exact hpaddvd
  · rw [hctlen]
    exact hpadpos

end Speedtest

namespace Speedtest

/-- Witness for C9: the identity block transform on the plaintext bytes
`[1, 2, 3]` (padding count 5 here). -/
theorem PKCS5Padding_bounds_witness :
    (∀ x ∈ ([1, 2, 3] : List Nat), x < 256) ∧
      (∃ k, 1 ≤ k ∧ k ≤ 8 ∧ (8 ∣ ([1, 2, 3] : List Nat).length → k = 8) ∧
        PKCS5Padding [1, 2, 3] 8 = [1, 2, 3] ++ List.replicate k k ∧
        ∃ d, hexDecode (Encrypt ⟨fun b => b, fun b => b⟩ [1, 2, 3]) = some d ∧
          d.length = ([1, 2, 3] : List Nat).length + k ∧ 8 ∣ d.length ∧ 0 < d.length) :=
  ⟨by decide,
    PKCS5Padding_bounds ⟨fun b => b, fun b => b⟩ (fun _ hb _ => hb) (fun _ _ hv => hv)
      [1, 2, 3] (by decide)⟩

end Speedtest
